import Mathlib

/-!
Verification of the `nest-dto-generator` controller-extraction core.

The development shallowly embeds the TypeScript sources:

* `src/analyzers/src-resolver.ts` — `isControllerDecorator`, `resolveVariable`,
  `getControllerPath`, `getPathFromArray`, `getPathFromOptions`,
  `getPathFromArgument`, `filterControllerClasses`;
* `src/analyzers/expression-resolver.ts` — `resolveToLiteral`,
  `resolvePrefixUnaryExpressionToLiteral`, `resolveSymbolToLiteral`,
  `resolveTypeToLiteral` (the current two-argument variant that consults the
  program's type checker).

The TypeScript program snapshot (AST plus symbol table) is modelled by an
explicit environment.  Functions of the repository that can recurse through
declaration chains take a `fuel` bound on the nesting depth of `resolveVariable`
calls; a `none` result means the bound was exhausted, faithfully exposing the
source's unbounded recursion (the source has no visited-set).  Thrown
`InvalidControllerDecoratorError`s are modelled as explicit error results
carrying the thrown message.
-/

namespace NestDto

/-- Unary operator token of a TS `PrefixUnaryExpression`.  Only `MinusToken`
is inspected by the source; every other operator is collapsed into
`otherOp`, identified by its syntax-kind number. -/
inductive UnaryOp where
  | minusToken
  | otherOp (kind : Nat)

mutual

/-- TS expression nodes, restricted to the node kinds the repository's
dispatchers inspect.  `ident` carries the identifier text together with the
result of `typeChecker.getSymbolAtLocation` for that node (an index into the
snapshot's symbol table, or `none` when the checker knows no symbol there).
String-like literals carry their decoded `.text`.  `numericLit` and
`bigIntLit` carry the raw literal text (numeric payloads stay symbolic:
no claim below inspects the value of `parseFloat`).  `regexLit` carries the
raw text including the `/` delimiters, as `ts.RegularExpressionLiteral.text`
does.  `otherExpr` stands for every further syntax kind, identified by its
kind number. -/
inductive Expr where
  | numericLit (text : String)
  | bigIntLit (text : String)
  | stringLit (text : String)
  | noSubstTemplate (text : String)
  | regexLit (text : String)
  | trueKw
  | falseKw
  | unaryExpr (op : UnaryOp) (operand : Expr)
  | parenExpr (inner : Expr)
  | computedPropName (inner : Expr)
  | arrayLit (elements : List Expr)
  | objectLit (props : List ObjectProp)
  | ident (text : String) (symbolId : Option Nat)
  | callExpr (callee : Expr) (args : List Expr)
  | otherExpr (kind : Nat)

/-- A member of a TS object literal.  `propertyAssignment` carries the name
expression (identifier, string literal, or computed name) and the property
value expression; every other member kind (shorthand property, method,
spread, ...) is `otherProperty`. -/
inductive ObjectProp where
  | propertyAssignment (name : Expr) (value : Expr)
  | otherProperty (kind : Nat)

end

/-- A TS declaration.  `resolveVariable` only looks at
`ts.isVariableDeclaration` declarations and their initializing expression
(`none` when declared without `= ...`); everything else is `otherDecl`. -/
inductive Decl where
  | variableDecl (init : Option Expr)
  | otherDecl

/-- The checker's `ts.Type` for a symbol, restricted to what
`resolveTypeToLiteral` inspects: a string-literal type with its value, or
anything else. -/
inductive TsType where
  | stringLiteralType (value : String)
  | otherType

/-- A `ts.Symbol` of the snapshot's symbol table.  `isAlias` reflects
`symbol.flags & ts.SymbolFlags.Alias`; `aliasTarget` is the index that
`typeChecker.getAliasedSymbol` returns (the checker unwinds the whole
re-export/import chain in that one call).  `isPropertyFlag` reflects
`symbol.flags === ts.SymbolFlags.Property`, `typeOf` the result of
`typeChecker.getTypeOfSymbol`. -/
structure Symbol where
  isAlias : Bool
  aliasTarget : Nat
  declarations : List Decl
  isPropertyFlag : Bool
  escapedName : String
  typeOf : TsType

/-- The immutable program snapshot: the symbol table consulted through the
checker.  All AST data lives in the expression nodes themselves. -/
structure Env where
  symbols : List Symbol

/-- Fallback symbol used when an alias target index is dangling (impossible
for a checker-produced snapshot; it carries no declarations, so resolution
simply yields `undefined`). -/
def Symbol.missing : Symbol :=
  { isAlias := false, aliasTarget := 0, declarations := [],
    isPropertyFlag := false, escapedName := "", typeOf := .otherType }

/-- The checker's `getAliasedSymbol` step of `resolveVariable`: when the
symbol has the Alias flag it is replaced by its fully-resolved target. -/
def Env.resolveAlias (env : Env) (sym : Symbol) : Symbol :=
  if sym.isAlias then (env.symbols[sym.aliasTarget]?).getD Symbol.missing else sym

/-- Model of `typeChecker.getSymbolAtLocation`: only identifier nodes of this
snapshot carry a symbol reference. -/
def getSymbolAt (env : Env) : Expr → Option Symbol
  | .ident _ (some i) => env.symbols[i]?
  | _ => none

/-- Result type of `resolveToLiteral` (the source's `ResolverResult` tagged
union).  `objectLit` holds the JS record the source builds: string keys
(after JS property-key coercion) mapped to the entry's raw `value` field;
the raw values of each variant correspond one-to-one to the constructors of
this inductive, so the record's payload is represented by the same type.
`unresolved` is the `valueType: undefined` result. -/
inductive ResolverResult where
  | numericLit (value : String)
  | bigIntLit (value : String)
  | stringLit (value : String)
  | regexLit (value : String)
  | trueKeyword
  | falseKeyword
  | arrayLit (value : List ResolverResult)
  | objectLit (value : List (String × ResolverResult))
  | unresolved

/-- JS string coercion used by the property assignment `acc[key.value] = ...`:
`String(undefined) = "undefined"`, booleans print their keyword, an array of
`ResolverResult` objects joins `"[object Object]"` entries with commas, a
record prints `"[object Object]"`.  Numeric and bigint payloads are symbolic
literal texts (see `Expr`), and a `RegExp` prints as `/source/`; no claim
below coerces a numeric, bigint or regex key. -/
def jsToPropertyKey : ResolverResult → String
  | .stringLit s => s
  | .trueKeyword => "true"
  | .falseKeyword => "false"
  | .unresolved => "undefined"
  | .numericLit t => t
  | .bigIntLit t => t
  | .regexLit t => "/" ++ t ++ "/"
  | .arrayLit vs => String.intercalate "," (vs.map (fun _ => "[object Object]"))
  | .objectLit _ => "[object Object]"

/-- JS property assignment `acc[k] = v` on a record represented as an ordered
association list: an existing key is overwritten in place, a new key is
appended. -/
def jsAssign (acc : List (String × ResolverResult)) (k : String)
    (v : ResolverResult) : List (String × ResolverResult) :=
  if acc.any (fun e => e.1 == k) then
    acc.map (fun e => if e.1 == k then (k, v) else e)
  else
    acc ++ [(k, v)]

/-- The `MinusToken` arm of `resolvePrefixUnaryExpressionToLiteral`, applied
to the already-resolved operand (the source helper recurses into
`resolveToLiteral` for the operand and is otherwise non-recursive).  JS
negation of the symbolic numeric text toggles a sign prefix. -/
def resolveUnaryFromOperand (op : UnaryOp) (operand : ResolverResult) :
    ResolverResult :=
  match op with
  | .minusToken =>
    match operand with
    | .numericLit v =>
      .numericLit (if v.startsWith "-" then v.drop 1 else "-" ++ v)
    | _ => .unresolved
  | .otherOp _ => .unresolved

/-- Model of `resolveTypeToLiteral`: a string-literal type yields its value,
every other type flag falls through to the unresolved result. -/
def resolveTypeToLiteral : TsType → ResolverResult
  | .stringLiteralType s => .stringLit s
  | .otherType => .unresolved

/-- Model of `resolveSymbolToLiteral`: a symbol whose flags equal
`SymbolFlags.Property` resolves to its escaped name as a string; otherwise
the symbol's checker type is inspected. -/
def resolveSymbolToLiteral (sym : Symbol) : ResolverResult :=
  if sym.isPropertyFlag then .stringLit sym.escapedName
  else resolveTypeToLiteral sym.typeOf

mutual

/-- Model of the current `resolveToLiteral(expr, program)`: dispatch over the
node kind; anything not listed falls through to the unresolved result.
String payloads follow the source's slicing (`BigIntLiteral.text` loses its
`n` suffix, regex text loses its delimiters).  An identifier with no symbol
is treated as a string literal of its own text (bare-word fallback); with a
symbol it goes through `resolveSymbolToLiteral`. -/
def resolveToLiteral (env : Env) : Expr → ResolverResult
  | .numericLit t => .numericLit t
  | .bigIntLit t => .bigIntLit (t.dropRight 1)
  | .stringLit t => .stringLit t
  | .noSubstTemplate t => .stringLit t
  | .regexLit t => .regexLit ((t.drop 1).dropRight 1)
  | .trueKw => .trueKeyword
  | .falseKw => .falseKeyword
  | .unaryExpr op e => resolveUnaryFromOperand op (resolveToLiteral env e)
  | .parenExpr e => resolveToLiteral env e
  | .computedPropName e => resolveToLiteral env e
  | .arrayLit es => .arrayLit (resolveToLiteralList env es)
  | .objectLit props => .objectLit (resolveProps env props [])
  | .ident t osym =>
    match (do let i ← osym; env.symbols[i]? : Option Symbol) with
    | none => .stringLit t
    | some sym => resolveSymbolToLiteral sym
  | .callExpr _ _ => .unresolved
  | .otherExpr _ => .unresolved

/-- Elementwise `elements.map(resolveToLiteral)` of the array case. -/
def resolveToLiteralList (env : Env) : List Expr → List ResolverResult
  | [] => []
  | e :: es => resolveToLiteral env e :: resolveToLiteralList env es

/-- The `properties.reduce` of the object case: every
`ts.isPropertyAssignment` member stores `value.value` under the coerced
`key.value`; every other member kind leaves the accumulator unchanged. -/
def resolveProps (env : Env) :
    List ObjectProp → List (String × ResolverResult) →
      List (String × ResolverResult)
  | [], acc => acc
  | .propertyAssignment n v :: ps, acc =>
    resolveProps env ps
      (jsAssign acc (jsToPropertyKey (resolveToLiteral env n))
        (resolveToLiteral env v))
  | .otherProperty _ :: ps, acc => resolveProps env ps acc

end

/-- Message of the error the host's `RegExp` constructor throws on a
pattern it rejects. -/
def invalidRegexMsg : String := "SyntaxError: Invalid regular expression"

/-- The host-runtime pattern grammar is external to the repository, so the
concrete scenarios fix one documented fact about it: every ECMAScript engine
rejects the pattern `a(` (an unterminated group), and that is the only host
grammar fact the concrete runs below rely on. -/
def hostRejects : String → Bool := fun s => s == "a("

mutual

/-- Model of `resolveToLiteral(expr, program)` with the host's exception
path included: the `RegularExpressionLiteral` arm runs
`new RegExp(text.slice(1, -1))`, and the constructor throws when the host
rejects the pattern — the scanner accepts literals such as `/a(/` whose
pattern the constructor then refuses.  Which patterns the host rejects is
host-runtime behavior, abstracted as the `rej` predicate.  Every other arm
is throw-free and matches `resolveToLiteral`; a thrown error propagates out
of the array map and the object reduce, aborting them.  The pure
`resolveToLiteral` above remains the value-level model of the results this
function returns when no construction throws (the agreement is proved
below). -/
def resolveToLiteralX (rej : String → Bool) (env : Env) :
    Expr → Except String ResolverResult
  | .numericLit t => .ok (.numericLit t)
  | .bigIntLit t => .ok (.bigIntLit (t.dropRight 1))
  | .stringLit t => .ok (.stringLit t)
  | .noSubstTemplate t => .ok (.stringLit t)
  | .regexLit t =>
    if rej ((t.drop 1).dropRight 1) then .error invalidRegexMsg
    else .ok (.regexLit ((t.drop 1).dropRight 1))
  | .trueKw => .ok .trueKeyword
  | .falseKw => .ok .falseKeyword
  | .unaryExpr op e =>
    (match op with
     | .minusToken =>
       (match resolveToLiteralX rej env e with
        | .error m => .error m
        | .ok r => .ok (resolveUnaryFromOperand .minusToken r))
     | .otherOp _ => .ok .unresolved)
  | .parenExpr e => resolveToLiteralX rej env e
  | .computedPropName e => resolveToLiteralX rej env e
  | .arrayLit es =>
    (match resolveListX rej env es with
     | .error m => .error m
     | .ok rs => .ok (.arrayLit rs))
  | .objectLit props =>
    (match resolvePropsX rej env props [] with
     | .error m => .error m
     | .ok m => .ok (.objectLit m))
  | .ident t osym =>
    (match (do let i ← osym; env.symbols[i]? : Option Symbol) with
     | none => .ok (.stringLit t)
     | some sym => .ok (resolveSymbolToLiteral sym))
  | .callExpr _ _ => .ok .unresolved
  | .otherExpr _ => .ok .unresolved

/-- The array case's `elements.map`, with a throw aborting the traversal. -/
def resolveListX (rej : String → Bool) (env : Env) :
    List Expr → Except String (List ResolverResult)
  | [] => .ok []
  | e :: es =>
    (match resolveToLiteralX rej env e with
     | .error m => .error m
     | .ok r =>
       match resolveListX rej env es with
       | .error m => .error m
       | .ok rs => .ok (r :: rs))

/-- The object case's `properties.reduce`, with a throw aborting it; the
key expression is evaluated before the value expression, as in the
source. -/
def resolvePropsX (rej : String → Bool) (env : Env) :
    List ObjectProp → List (String × ResolverResult) →
      Except String (List (String × ResolverResult))
  | [], acc => .ok acc
  | .propertyAssignment n v :: ps, acc =>
    (match resolveToLiteralX rej env n with
     | .error m => .error m
     | .ok k =>
       match resolveToLiteralX rej env v with
       | .error m => .error m
       | .ok w => resolvePropsX rej env ps (jsAssign acc (jsToPropertyKey k) w))
  | .otherProperty _ :: ps, acc => resolvePropsX rej env ps acc

end

mutual

/-- Whether every regular-expression literal in the tree carries a pattern
the host accepts: a sufficient condition for a throw-free evaluation. -/
def regexOkIn (rej : String → Bool) : Expr → Bool
  | .regexLit t => !rej ((t.drop 1).dropRight 1)
  | .unaryExpr _ e => regexOkIn rej e
  | .parenExpr e => regexOkIn rej e
  | .computedPropName e => regexOkIn rej e
  | .arrayLit es => regexOkList rej es
  | .objectLit ps => regexOkProps rej ps
  | .callExpr f args => regexOkIn rej f && regexOkList rej args
  | _ => true

/-- Conjunction of `regexOkIn` over a list of expressions. -/
def regexOkList (rej : String → Bool) : List Expr → Bool
  | [] => true
  | e :: es => regexOkIn rej e && regexOkList rej es

/-- Conjunction of `regexOkIn` over an object literal's members. -/
def regexOkProps (rej : String → Bool) : List ObjectProp → Bool
  | [] => true
  | .propertyAssignment n v :: ps =>
    regexOkIn rej n && regexOkIn rej v && regexOkProps rej ps
  | .otherProperty _ :: ps => regexOkProps rej ps

end

/-- Result of `resolveVariable`: a string, a string array, the
`ObjectLiteralExpression` node of the declaration's initializing expression,
or `undefined`. -/
inductive RVRes where
  | str (s : String)
  | strs (l : List String)
  | objNode (props : List ObjectProp)
  | undefined

/-- The `for (const element of initializer.elements)` loop of
`resolveVariable`'s array case, abstracted over the recursive
`resolveVariable` call `rv`.  `some (some l)` collects the strings in order,
`some none` is the loop's `return undefined`, and `none` propagates fuel
exhaustion of a nested call. -/
def resolveVarElems (rv : Expr → Option RVRes) :
    List Expr → Option (Option (List String))
  | [] => some (some [])
  | e :: rest =>
    match e with
    | .stringLit s =>
      (match resolveVarElems rv rest with
       | none => none
       | some none => some none
       | some (some l) => some (some (s :: l)))
    | .ident t oi =>
      (match rv (.ident t oi) with
       | none => none
       | some (.str s) =>
         (match resolveVarElems rv rest with
          | none => none
          | some none => some none
          | some (some l) => some (some (s :: l)))
       | some (.strs sl) =>
         (match resolveVarElems rv rest with
          | none => none
          | some none => some none
          | some (some l) => some (some (sl ++ l)))
       | some _ => some none)
    | _ => some none

/-- Model of `resolveVariable(node, program)` with an explicit bound on the
nesting depth of `resolveVariable` calls: look the node's symbol up, unwind
an alias, take the first declaration, and interpret its initializing
expression — a string literal directly, an array literal through
`resolveVarElems` (which re-enters `resolveVariable` on identifier
elements), an object literal as the node itself.  The source tracks no
visited declarations, so nothing but the fuel bounds the recursion; `none`
reports exhaustion. -/
def resolveVariableF : Nat → Env → Expr → Option RVRes
  | 0, _, _ => none
  | fuel + 1, env, node =>
    match getSymbolAt env node with
    | none => some .undefined
    | some sym0 =>
      match (env.resolveAlias sym0).declarations.head? with
      | none => some .undefined
      | some (.variableDecl (some init)) =>
        (match init with
         | .stringLit s => some (.str s)
         | .arrayLit elems =>
           (match resolveVarElems (resolveVariableF fuel env) elems with
            | none => none
            | some none => some .undefined
            | some (some l) => some (.strs l))
         | .objectLit ps => some (.objNode ps)
         | _ => some .undefined)
      | some (.variableDecl none) => some .undefined
      | some .otherDecl => some .undefined

/-- Message of the `InvalidControllerDecoratorError` thrown on an empty
decorator path array. -/
def emptyArrayMsg : String := "Controller decorator path array cannot be empty"

/-- Message thrown on an array element that is neither a string literal nor a
resolvable string variable. -/
def arrElemMsg : String :=
  "Controller decorator array elements must be strings or string variables"

/-- Message thrown when an options object's path property cannot be
interpreted. -/
def optionsMsg : String :=
  "Controller decorator path property must be a string, string array, or string variable"

/-- Message thrown when the decorator's first argument has no interpretable
shape at all. -/
def topArgMsg : String :=
  "Controller decorator path must be a string, string array, or ControllerOptions object"

/-- Message thrown when the matched decorator is not written as a call. -/
def notCallMsg : String := "Controller decorator must be a function call"

/-- Outcome of a path-normalizing function: the segment list, or the message
of the thrown `InvalidControllerDecoratorError`. -/
inductive PathResult where
  | paths (segs : List String)
  | thrown (msg : String)
deriving DecidableEq

/-- Outcome of `getPathFromArgument`, which can also return `undefined`. -/
inductive ArgRes where
  | paths (segs : List String)
  | thrown (msg : String)
  | undefined
deriving DecidableEq

/-- The element loop of `getPathFromArray`: a string literal contributes its
text, an identifier is resolved through `resolveVariable` (a string
contributes one segment, a string array is spread in place, anything else
throws), and every other element kind throws. -/
def pathElemsF (fuel : Nat) (env : Env) : List Expr → Option PathResult
  | [] => some (.paths [])
  | e :: rest =>
    match e with
    | .stringLit s =>
      (match pathElemsF fuel env rest with
       | none => none
       | some (.thrown m) => some (.thrown m)
       | some (.paths l) => some (.paths (s :: l)))
    | .ident t oi =>
      (match resolveVariableF fuel env (.ident t oi) with
       | none => none
       | some (.str s) =>
         (match pathElemsF fuel env rest with
          | none => none
          | some (.thrown m) => some (.thrown m)
          | some (.paths l) => some (.paths (s :: l)))
       | some (.strs sl) =>
         (match pathElemsF fuel env rest with
          | none => none
          | some (.thrown m) => some (.thrown m)
          | some (.paths l) => some (.paths (sl ++ l)))
       | some _ => some (.thrown arrElemMsg))
    | _ => some (.thrown arrElemMsg)

/-- Model of `getPathFromArray(elements, program)`: an empty element list
throws, otherwise the element loop runs. -/
def getPathFromArrayF (fuel : Nat) (env : Env) (elements : List Expr) :
    Option PathResult :=
  if elements.isEmpty then some (.thrown emptyArrayMsg)
  else pathElemsF fuel env elements

/-- The predicate of `getPathFromOptions`' `properties.find`: a property
assignment whose name is written as the bare identifier `path`. -/
def isPathProp : ObjectProp → Bool
  | .propertyAssignment (.ident t _) _ => t == "path"
  | _ => false

/-- Model of `getPathFromOptions(arg, program)`: find the `path` property
assignment (none means an empty segment list), then interpret its value —
string literal, array literal, or identifier resolved through
`resolveVariable`; everything else throws.  The property-assignment re-check
after `find` is kept although the find predicate already guarantees it. -/
def getPathFromOptionsF (fuel : Nat) (env : Env) (props : List ObjectProp) :
    Option PathResult :=
  match props.find? isPathProp with
  | none => some (.paths [])
  | some (.otherProperty _) =>
    some (.thrown "Controller decorator path property must be a property assignment")
  | some (.propertyAssignment _ init) =>
    match init with
    | .stringLit s => some (.paths [s])
    | .arrayLit elems => getPathFromArrayF fuel env elems
    | .ident t oi =>
      (match resolveVariableF fuel env (.ident t oi) with
       | none => none
       | some (.str s) => some (.paths [s])
       | some (.strs l) => some (.paths l)
       | some _ => some (.thrown optionsMsg))
    | _ => some (.thrown optionsMsg)

/-- Model of `getPathFromArgument(arg, program)`: a string literal is a
one-segment list; an identifier resolves through `resolveVariable` — a
string or string array directly, an object literal node through
`getPathFromOptions`; everything else (including an unresolvable
identifier) returns `undefined`. -/
def getPathFromArgumentF (fuel : Nat) (env : Env) (arg : Expr) :
    Option ArgRes :=
  match arg with
  | .stringLit s => some (.paths [s])
  | .ident t oi =>
    (match resolveVariableF fuel env (.ident t oi) with
     | none => none
     | some (.str s) => some (.paths [s])
     | some (.strs l) => some (.paths l)
     | some (.objNode ps) =>
       (match getPathFromOptionsF fuel env ps with
        | none => none
        | some (.paths l) => some (.paths l)
        | some (.thrown m) => some (.thrown m))
     | some .undefined => some .undefined)
  | _ => some .undefined

/-- A decorator node: `decorator.expression` is the whole `@...` expression
(a call expression for invoked markers). -/
structure Decorator where
  expression : Expr

/-- Model of `isControllerDecorator`: the decorator must be written as a call
whose callee is an identifier with text exactly `Controller`. -/
def isControllerDecorator (dec : Decorator) : Bool :=
  match dec.expression with
  | .callExpr (.ident t _) _ => t == "Controller"
  | _ => false

/-- Model of `getControllerPath(decorator, program)`: a non-call decorator
throws; no first argument yields the empty segment list; an object literal
goes through `getPathFromOptions`, an array literal through
`getPathFromArray`, anything else through `getPathFromArgument`, whose
`undefined` is escalated to a thrown error. -/
def getControllerPathF (fuel : Nat) (env : Env) (dec : Decorator) :
    Option PathResult :=
  match dec.expression with
  | .callExpr _ args =>
    (match args.head? with
     | none => some (.paths [])
     | some firstArg =>
       match firstArg with
       | .objectLit ps => getPathFromOptionsF fuel env ps
       | .arrayLit elems => getPathFromArrayF fuel env elems
       | _ =>
         (match getPathFromArgumentF fuel env firstArg with
          | none => none
          | some (.paths l) => some (.paths l)
          | some (.thrown m) => some (.thrown m)
          | some .undefined => some (.thrown topArgMsg)))
  | _ => some (.thrown notCallMsg)

/-- A candidate class declaration.  `decoratorsOpt` is the result of
`ts.canHaveDecorators(cls) ? ts.getDecorators(cls) : undefined`. -/
structure ClassDecl where
  name : String
  decoratorsOpt : Option (List Decorator)

/-- One record of the extraction output: the class and its normalized path
segments. -/
structure ControllerInfo where
  cls : ClassDecl
  path : List String

/-- The `classes.map` callback of `filterControllerClasses`: classes with no
decorator list or no qualifying decorator produce `null` (here `ok none`);
otherwise the first qualifying decorator's path is normalized, and a thrown
`InvalidControllerDecoratorError` propagates as an error result. -/
def processClassF (fuel : Nat) (env : Env) (cls : ClassDecl) :
    Option (Except String (Option ControllerInfo)) :=
  match cls.decoratorsOpt with
  | none => some (.ok none)
  | some decorators =>
    match decorators.find? isControllerDecorator with
    | none => some (.ok none)
    | some d =>
      match getControllerPathF fuel env d with
      | none => none
      | some (.thrown m) => some (.error m)
      | some (.paths p) => some (.ok (some ⟨cls, p⟩))

/-- Model of `filterControllerClasses(classes, program)`: process the classes
in source order, drop the `null`s, and let the first thrown error abort the
whole run (a JS exception inside `.map` propagates immediately, so later
classes are never examined and no partial record list escapes). -/
def filterControllerClassesF (fuel : Nat) (env : Env) :
    List ClassDecl → Option (Except String (List ControllerInfo))
  | [] => some (.ok [])
  | c :: rest =>
    match processClassF fuel env c with
    | none => none
    | some (.error m) => some (.error m)
    | some (.ok oInfo) =>
      match filterControllerClassesF fuel env rest with
      | none => none
      | some (.error m) => some (.error m)
      | some (.ok l) =>
        some (.ok (match oInfo with | none => l | some i => i :: l))

/-- Claim-side description of one array element's contribution, following the
wording of the spec's sequence rule: a direct string literal contributes its
text; any other element must resolve through the evaluator to a String
(`some (some [s])`) or a Sequence of Strings (`some (some l)`); an element
that does neither is marked `some none`; `none` propagates an exhausted
recursion bound. -/
def elemContribF (fuel : Nat) (env : Env) (e : Expr) :
    Option (Option (List String)) :=
  match e with
  | .stringLit s => some (some [s])
  | e =>
    match resolveVariableF fuel env e with
    | none => none
    | some (.str s) => some (some [s])
    | some (.strs l) => some (some l)
    | some _ => some none

/-- The node kinds named by a case of `resolveToLiteral`'s switch.  Every
other kind falls through to the unresolved default. -/
def isHandledKind : Expr → Bool
  | .numericLit _ => true
  | .bigIntLit _ => true
  | .stringLit _ => true
  | .noSubstTemplate _ => true
  | .regexLit _ => true
  | .trueKw => true
  | .falseKw => true
  | .unaryExpr _ _ => true
  | .parenExpr _ => true
  | .computedPropName _ => true
  | .arrayLit _ => true
  | .objectLit _ => true
  | .ident _ _ => true
  | .callExpr _ _ => false
  | .otherExpr _ => false

mutual

/-- All string-literal texts occurring in an expression tree (provenance
universe for path segments). -/
def textsOfExpr : Expr → List String
  | .stringLit s => [s]
  | .unaryExpr _ e => textsOfExpr e
  | .parenExpr e => textsOfExpr e
  | .computedPropName e => textsOfExpr e
  | .arrayLit es => textsOfList es
  | .objectLit ps => textsOfProps ps
  | .callExpr f args => textsOfExpr f ++ textsOfList args
  | _ => []

/-- String-literal texts of a list of expressions. -/
def textsOfList : List Expr → List String
  | [] => []
  | e :: es => textsOfExpr e ++ textsOfList es

/-- String-literal texts of an object literal's members. -/
def textsOfProps : List ObjectProp → List String
  | [] => []
  | .propertyAssignment n v :: ps => textsOfExpr n ++ textsOfExpr v ++ textsOfProps ps
  | .otherProperty _ :: ps => textsOfProps ps

end

/-- String-literal texts of a declaration's initializing expression. -/
def textsOfDecl : Decl → List String
  | .variableDecl (some e) => textsOfExpr e
  | _ => []

/-- String-literal texts of the first declaration of a symbol (the only
declaration `resolveVariable` reads). -/
def textsOfSymbol (sym : Symbol) : List String :=
  match sym.declarations.head? with
  | some d => textsOfDecl d
  | none => []

/-- String-literal texts reachable in any declaration of the snapshot. -/
def textsOfEnv (env : Env) : List String :=
  env.symbols.foldr (fun s acc => textsOfSymbol s ++ acc) []

/-- The snapshot with an empty symbol table, used by concrete scenarios that
need no identifier resolution. -/
def env0 : Env := ⟨[]⟩

/-- Symbol of `const A = [B]` where `B` is symbol 1: one half of a cyclic
declaration chain. -/
def symCycA : Symbol :=
  { isAlias := false, aliasTarget := 0,
    declarations := [.variableDecl (some (.arrayLit [.ident "B" (some 1)]))],
    isPropertyFlag := false, escapedName := "A", typeOf := .otherType }

/-- Symbol of `const B = [A]` where `A` is symbol 0: the other half of the
cycle. -/
def symCycB : Symbol :=
  { isAlias := false, aliasTarget := 0,
    declarations := [.variableDecl (some (.arrayLit [.ident "A" (some 0)]))],
    isPropertyFlag := false, escapedName := "B", typeOf := .otherType }

/-- A snapshot whose declaration chains form the two-cycle `A = [B]`,
`B = [A]` (legal TS source text; the checker resolves its symbols). -/
def cycEnv : Env := ⟨[symCycA, symCycB]⟩

/-- Symbol ids of the identifier elements of the (alias-resolved) first
declaration's array initializing expression: exactly the declarations
`resolveVariable` re-enters from this symbol. -/
def arrayRefs (env : Env) (sym : Symbol) : List Nat :=
  match (env.resolveAlias sym).declarations.head? with
  | some (.variableDecl (some (.arrayLit elems))) =>
    elems.foldr
      (fun e acc => match e with | .ident _ (some j) => j :: acc | _ => acc) []
  | _ => []

/-- A ranking certificate of an acyclic snapshot: every declaration-chain
edge strictly decreases the rank. -/
def RankOk (env : Env) (rank : Nat → Nat) : Prop :=
  ∀ i sym, env.symbols[i]? = some sym → ∀ j ∈ arrayRefs env sym, rank j < rank i

/-- Key membership in the record built by the object-literal case. -/
def hasKey (m : List (String × ResolverResult)) (k : String) : Bool :=
  m.any (fun e => e.1 == k)

/-- Whether an object member is a `ts.isPropertyAssignment` member. -/
def isPropAssign : ObjectProp → Bool
  | .propertyAssignment _ _ => true
  | .otherProperty _ => false

/-- Import-alias symbol of `import { P } from './orig'`, pointing at symbol
number 1. -/
def symAliasP : Symbol :=
  { isAlias := true, aliasTarget := 1, declarations := [.otherDecl],
    isPropertyFlag := false, escapedName := "P", typeOf := .otherType }

/-- Original symbol of `const P = 'api'`. -/
def symOrigP : Symbol :=
  { isAlias := false, aliasTarget := 0,
    declarations := [.variableDecl (some (.stringLit "api"))],
    isPropertyFlag := false, escapedName := "P",
    typeOf := .stringLiteralType "api" }

/-- Snapshot in which identifier `P` reaches `const P = 'api'` through
an alias binding. -/
def aliasEnv : Env := ⟨[symAliasP, symOrigP]⟩

/-- Symbol of `const X = [Y]` where `Y` is symbol 1 (acyclic chain head). -/
def symChainX : Symbol :=
  { isAlias := false, aliasTarget := 0,
    declarations := [.variableDecl (some (.arrayLit [.ident "Y" (some 1)]))],
    isPropertyFlag := false, escapedName := "X", typeOf := .otherType }

/-- Symbol of `const Y = 'y'` (acyclic chain tail). -/
def symChainY : Symbol :=
  { isAlias := false, aliasTarget := 0,
    declarations := [.variableDecl (some (.stringLit "y"))],
    isPropertyFlag := false, escapedName := "Y", typeOf := .otherType }

/-- An acyclic snapshot: `X = [Y]`, `Y = 'y'`. -/
def chainEnv : Env := ⟨[symChainX, symChainY]⟩

/-- A rank certificate for `chainEnv`. -/
def chainRank : Nat → Nat := fun i => if i = 0 then 1 else 0

/-- Decorator `@Controller('users')`. -/
def decUsers : Decorator := ⟨.callExpr (.ident "Controller" none) [.stringLit "users"]⟩

/-- Decorator `@Controller(123)` — a malformed path argument. -/
def decBad : Decorator := ⟨.callExpr (.ident "Controller" none) [.numericLit "123"]⟩

/-- Decorator `@Get()` — a marker with a different name. -/
def decGet : Decorator := ⟨.callExpr (.ident "Get" none) []⟩

/-- Class `UserX` carrying `@Controller('users')`. -/
def clsGood : ClassDecl := ⟨"UserX", some [decUsers]⟩

/-- Class `BadX` carrying `@Controller(123)`. -/
def clsBad : ClassDecl := ⟨"BadX", some [decBad]⟩

/-- Class `PlainX` carrying only `@Get()`. -/
def clsPlain : ClassDecl := ⟨"PlainX", some [decGet]⟩

/-- Class `TwoX` carrying `@Get()` followed by `@Controller('users')`. -/
def clsTwo : ClassDecl := ⟨"TwoX", some [decGet, decUsers]⟩

/-- Finding in a list whose prefix fails the predicate returns the first
hit. -/
theorem find_first {α : Type} (p : α → Bool) :
    ∀ (l1 : List α) (a : α) (l2 : List α), (∀ x ∈ l1, p x = false) →
      p a = true → (l1 ++ a :: l2).find? p = some a := by
  intro l1 a l2 h1 ha
  induction l1 with
  | nil => simp [List.find?, ha]
  | cons b rest ih =>
    have hb : p b = false := h1 b (by simp)
    simp only [List.cons_append, List.find?, hb]
    exact ih (fun x hx => h1 x (by simp [hx]))

/-- C1: when every class before `c` processes without a thrown error and
normalizing `c`'s matched marker argument throws the message `m`, the whole
extraction run fails with that very error — immediately, regardless of the
classes after `c`, and with no partial record list (the result is the error
alone). -/
theorem extraction_fail_fast (fuel : Nat) (env : Env) (pre : List ClassDecl)
    (c : ClassDecl) (post : List ClassDecl) (m : String)
    (hpre : ∀ x ∈ pre, ∃ r, processClassF fuel env x = some (Except.ok r))
    (hc : processClassF fuel env c = some (Except.error m)) :
    filterControllerClassesF fuel env (pre ++ c :: post) =
      some (Except.error m) := by
  induction pre with
  | nil => simp [filterControllerClassesF, hc]
  | cons a rest ih =>
    obtain ⟨r, hr⟩ := hpre a (by simp)
    have hrest := ih (fun x hx => hpre x (by simp [hx]))
    simp [filterControllerClassesF, hr, hrest]

/-- Witness for C1: with `UserX` (`@Controller('users')`) before and
`PlainX` after, the malformed `BadX` (`@Controller(123)`) makes the run fail
with the top-level argument error. -/
theorem extraction_fail_fast_witness :
    filterControllerClassesF 1 env0 ([clsGood] ++ clsBad :: [clsPlain]) =
      some (Except.error topArgMsg) :=
  extraction_fail_fast 1 env0 [clsGood] clsBad [clsPlain] topArgMsg
    (by
      intro x hx
      simp only [List.mem_singleton] at hx
      exact ⟨some ⟨clsGood, ["users"]⟩, by rw [hx]; rfl⟩)
    (by rfl)

/-- C2: a class none of whose decorators qualifies (different name, or not
written as a call) is silently skipped — it contributes nothing to the
output and never causes an error; and when a qualifying decorator exists,
the first one in source order is the one whose argument is normalized. -/
theorem marker_matching_first_wins (fuel : Nat) (env : Env) (cls : ClassDecl) :
    ((cls.decoratorsOpt.getD []).any isControllerDecorator = false →
      processClassF fuel env cls = some (Except.ok none) ∧
      ∀ rest, filterControllerClassesF fuel env (cls :: rest) =
        filterControllerClassesF fuel env rest) ∧
    (∀ ds1 d ds2, cls.decoratorsOpt = some (ds1 ++ d :: ds2) →
      (∀ x ∈ ds1, isControllerDecorator x = false) →
      isControllerDecorator d = true →
      processClassF fuel env cls =
        match getControllerPathF fuel env d with
        | none => none
        | some (.thrown m) => some (Except.error m)
        | some (.paths p) => some (Except.ok (some ⟨cls, p⟩))) := by
  constructor
  · intro hno
    have hproc : processClassF fuel env cls = some (Except.ok none) := by
      cases hds : cls.decoratorsOpt with
      | none => simp [processClassF, hds]
      | some ds =>
        have : ds.find? isControllerDecorator = none := by
          rw [List.find?_eq_none]
          intro x hx
          have := hno
          rw [hds] at this
          simp only [Option.getD_some, List.any_eq_false] at this
          simp [this x hx]
        simp [processClassF, hds, this]
    refine ⟨hproc, fun rest => ?_⟩
    cases hrest : filterControllerClassesF fuel env rest with
    | none => simp [filterControllerClassesF, hproc, hrest]
    | some r => cases r <;> simp [filterControllerClassesF, hproc, hrest]
  · intro ds1 d ds2 hds h1 hd
    have hfind : (ds1 ++ d :: ds2).find? isControllerDecorator = some d :=
      find_first isControllerDecorator ds1 d ds2 h1 hd
    simp [processClassF, hds, hfind]

/-- Witness for C2: `TwoX` carries `@Get()` first and `@Controller('users')`
second; the second decorator is the first qualifying one and its argument is
the one normalized. -/
theorem marker_matching_first_wins_witness :
    processClassF 1 env0 clsTwo =
      some (Except.ok (some ⟨clsTwo, ["users"]⟩)) := by
  have h := (marker_matching_first_wins 1 env0 clsTwo).2 [decGet] decUsers []
    (by rfl) (by intro x hx; simp only [List.mem_singleton] at hx; rw [hx]; rfl)
    (by rfl)
  simpa using h

/-- C3: a marker whose first call argument is a string literal with text `s`
normalizes successfully to the one-element segment list `[s]`, for every
snapshot and recursion budget. -/
theorem string_literal_argument (fuel : Nat) (env : Env) (callee : Expr)
    (s : String) (rest : List Expr) :
    getControllerPathF fuel env ⟨.callExpr callee (.stringLit s :: rest)⟩ =
      some (.paths [s]) := by
  simp [getControllerPathF, getPathFromArgumentF]

mutual

/-- On a tree whose regex patterns the host accepts, the fallible evaluator
returns exactly the pure model's Literal Value without raising. -/
theorem resolveX_agrees (rej : String → Bool) (env : Env) :
    ∀ e : Expr, regexOkIn rej e = true →
      resolveToLiteralX rej env e = .ok (resolveToLiteral env e)
  | .numericLit t, _ => rfl
  | .bigIntLit t, _ => rfl
  | .stringLit t, _ => rfl
  | .noSubstTemplate t, _ => rfl
  | .regexLit t, h => by
    have hr : rej ((t.drop 1).dropRight 1) = false := by
      simpa [regexOkIn] using h
    simp [resolveToLiteralX, resolveToLiteral, hr]
  | .trueKw, _ => rfl
  | .falseKw, _ => rfl
  | .unaryExpr op e1, h => by
    cases op with
    | minusToken =>
      have h1 : regexOkIn rej e1 = true := by simpa [regexOkIn] using h
      simp [resolveToLiteralX, resolveToLiteral, resolveX_agrees rej env e1 h1]
    | otherOp k =>
      simp [resolveToLiteralX, resolveToLiteral, resolveUnaryFromOperand]
  | .parenExpr e1, h => by
    have h1 : regexOkIn rej e1 = true := by simpa [regexOkIn] using h
    simp [resolveToLiteralX, resolveToLiteral, resolveX_agrees rej env e1 h1]
  | .computedPropName e1, h => by
    have h1 : regexOkIn rej e1 = true := by simpa [regexOkIn] using h
    simp [resolveToLiteralX, resolveToLiteral, resolveX_agrees rej env e1 h1]
  | .arrayLit es, h => by
    have h1 : regexOkList rej es = true := by simpa [regexOkIn] using h
    simp [resolveToLiteralX, resolveToLiteral,
      resolveListX_agrees rej env es h1]
  | .objectLit ps, h => by
    have h1 : regexOkProps rej ps = true := by simpa [regexOkIn] using h
    simp [resolveToLiteralX, resolveToLiteral,
      resolvePropsX_agrees rej env ps h1 []]
  | .ident t osym, _ => by
    rcases hx : (do let i ← osym; env.symbols[i]? : Option Symbol) with _ | sym
    · simp [resolveToLiteralX, resolveToLiteral, hx]
    · simp [resolveToLiteralX, resolveToLiteral, hx]
  | .callExpr f args, _ => rfl
  | .otherExpr k, _ => rfl

/-- Elementwise agreement of the array traversal. -/
theorem resolveListX_agrees (rej : String → Bool) (env : Env) :
    ∀ es : List Expr, regexOkList rej es = true →
      resolveListX rej env es = .ok (resolveToLiteralList env es)
  | [], _ => rfl
  | e :: rest, h => by
    have h1 : regexOkIn rej e = true := by
      have := h; simp [regexOkList] at this; exact this.1
    have h2 : regexOkList rej rest = true := by
      have := h; simp [regexOkList] at this; exact this.2
    simp [resolveListX, resolveToLiteralList, resolveX_agrees rej env e h1,
      resolveListX_agrees rej env rest h2]

/-- Entrywise agreement of the object reduce, for every accumulator. -/
theorem resolvePropsX_agrees (rej : String → Bool) (env : Env) :
    ∀ ps : List ObjectProp, regexOkProps rej ps = true →
      ∀ acc, resolvePropsX rej env ps acc = .ok (resolveProps env ps acc)
  | [], _, acc => rfl
  | .propertyAssignment n v :: rest, h, acc => by
    have h1 : regexOkIn rej n = true := by
      have := h; simp [regexOkProps] at this; exact this.1.1
    have h2 : regexOkIn rej v = true := by
      have := h; simp [regexOkProps] at this; exact this.1.2
    have h3 : regexOkProps rej rest = true := by
      have := h; simp [regexOkProps] at this; exact this.2
    simp [resolvePropsX, resolveProps, resolveX_agrees rej env n h1,
      resolveX_agrees rej env v h2, resolvePropsX_agrees rej env rest h3]
  | .otherProperty kd :: rest, h, acc => by
    have h3 : regexOkProps rej rest = true := by simpa [regexOkProps] using h
    simp [resolvePropsX, resolveProps, resolvePropsX_agrees rej env rest h3]

end

/-- Counterexample to C6: the scanner-accepted regex literal `/a(/` — a node
kind the evaluator does recognize — reaches `new RegExp("a(")`, which the
host rejects, so `resolveToLiteral` raises a SyntaxError instead of
terminating normally with a result. -/
theorem resolver_regex_throw_cex :
    resolveToLiteralX hostRejects env0 (.regexLit "/a(/") =
      .error invalidRegexMsg ∧
    isHandledKind (.regexLit "/a(/") = true :=
  ⟨rfl, rfl⟩

/-- Amended C6: the literal evaluator's only exception path is the RegExp
construction — on a node whose regular-expression literals all carry
host-accepted patterns it terminates normally, returning exactly the pure
model's Literal Value; every node kind outside its dispatch table yields
the unresolved result normally, as does a prefix operator other than minus
and a minus whose operand is not numeric. -/
theorem resolver_regex_exception_only (rej : String → Bool) (env : Env)
    (e : Expr) :
    (regexOkIn rej e = true →
      resolveToLiteralX rej env e = .ok (resolveToLiteral env e)) ∧
    (isHandledKind e = false →
      resolveToLiteralX rej env e = .ok .unresolved) ∧
    (∀ (k : Nat) (e1 : Expr),
      resolveToLiteralX rej env (.unaryExpr (.otherOp k) e1) =
        .ok .unresolved) ∧
    (∀ s : String,
      resolveToLiteralX rej env (.unaryExpr .minusToken (.stringLit s)) =
        .ok .unresolved) := by
  refine ⟨resolveX_agrees rej env e, ?_, ?_, ?_⟩
  · intro h
    cases e <;> simp_all [isHandledKind, resolveToLiteralX]
  · intro k e1
    simp [resolveToLiteralX]
  · intro s
    simp [resolveToLiteralX, resolveUnaryFromOperand]

/-- Witness for the amended C6: with the concrete host, `/ab/` is accepted
and evaluates normally to the Pattern value, and a call expression yields
the unresolved result normally. -/
theorem resolver_regex_exception_only_witness :
    resolveToLiteralX hostRejects env0 (.regexLit "/ab/") =
      .ok (.regexLit "ab") ∧
    resolveToLiteralX hostRejects env0 (.callExpr (.ident "f" none) []) =
      .ok .unresolved :=
  ⟨(resolver_regex_exception_only hostRejects env0 (.regexLit "/ab/")).1
    (by rfl),
   (resolver_regex_exception_only hostRejects env0
     (.callExpr (.ident "f" none) [])).2.1 (by rfl)⟩

/-- C10: the options-object path field is recognized only under a bare
identifier name; a quoted `"path"` name or a computed name never matches the
find predicate, so an options object with no identifier-named `path`
property normalizes to the empty segment list. -/
theorem options_path_field_ident_only (fuel : Nat) (env : Env) :
    (∀ props : List ObjectProp, (∀ p ∈ props, isPathProp p = false) →
      getPathFromOptionsF fuel env props = some (.paths [])) ∧
    (∀ v : Expr, isPathProp (.propertyAssignment (.stringLit "path") v) =
      false) ∧
    (∀ (e v : Expr), isPathProp
      (.propertyAssignment (.computedPropName e) v) = false) := by
  refine ⟨?_, fun v => rfl, fun e v => rfl⟩
  intro props h
  have hfind : props.find? isPathProp = none := by
    rw [List.find?_eq_none]
    intro x hx
    simp [h x hx]
  simp [getPathFromOptionsF, hfind]

/-- Witness for C10: an options object whose only property is the quoted
`"path"` normalizes to the empty segment list. -/
theorem options_path_field_ident_only_witness :
    getPathFromOptionsF 1 env0
      [.propertyAssignment (.stringLit "path") (.stringLit "x")] =
      some (.paths []) :=
  (options_path_field_ident_only 1 env0).1
    [.propertyAssignment (.stringLit "path") (.stringLit "x")]
    (by intro p hp; simp only [List.mem_singleton] at hp; rw [hp]; rfl)

/-- C5: an identifier whose symbol — after the checker unwinds any alias
chain of imports and re-exports — has a first declaration initialized by a
string literal `s` resolves to the String value `s`: the same Literal Value
the evaluator gives the string literal written inline, and the same path
normalization outcome at the reference site. -/
theorem alias_transparency (fuel : Nat) (env : Env) (t : String) (i : Nat)
    (sym : Symbol) (s : String)
    (hsym : env.symbols[i]? = some sym)
    (hdecl : (env.resolveAlias sym).declarations.head? =
      some (.variableDecl (some (.stringLit s)))) :
    resolveVariableF (fuel + 1) env (.ident t (some i)) = some (.str s) ∧
    resolveToLiteral env (.stringLit s) = .stringLit s ∧
    getPathFromArgumentF (fuel + 1) env (.ident t (some i)) =
      getPathFromArgumentF (fuel + 1) env (.stringLit s) := by
  have h1 : resolveVariableF (fuel + 1) env (.ident t (some i)) =
      some (.str s) := by
    simp [resolveVariableF, getSymbolAt, hsym, hdecl]
  refine ⟨h1, rfl, ?_⟩
  simp [getPathFromArgumentF, h1]

/-- Witness for C5: in `aliasEnv`, identifier `P` reaches `const P = 'api'`
through an import alias and resolves to the string `api`. -/
theorem alias_transparency_witness :
    resolveVariableF 1 aliasEnv (.ident "P" (some 0)) = some (.str "api") :=
  (alias_transparency 0 aliasEnv "P" 0 symAliasP "api" (by rfl) (by rfl)).1

/-- Counterexample to C7: in the object literal `{ [true]: 'x' }` the key
expression resolves to Boolean true — not to a String — yet the entry is not
skipped: it is stored under the coerced key `"true"`, so the resulting
record differs from the empty one the claim requires. -/
theorem mapping_nonstring_key_cex :
    resolveToLiteral env0
        (.objectLit [.propertyAssignment (.computedPropName .trueKw)
          (.stringLit "x")]) =
      .objectLit [("true", .stringLit "x")] ∧
    resolveToLiteral env0 (.computedPropName .trueKw) = .trueKeyword ∧
    ResolverResult.objectLit [("true", ResolverResult.stringLit "x")] ≠
      .objectLit [] :=
  ⟨rfl, rfl, by simp⟩

/-- Assigning a key makes it present. -/
theorem hasKey_jsAssign_self (acc : List (String × ResolverResult))
    (k : String) (v : ResolverResult) : hasKey (jsAssign acc k v) k = true := by
  unfold hasKey jsAssign
  by_cases h : acc.any (fun e => e.1 == k)
  · simp only [h, if_true]
    rw [List.any_eq_true] at h ⊢
    obtain ⟨e, he, hek⟩ := h
    exact ⟨(k, v), List.mem_map.mpr ⟨e, he, by simp [hek]⟩, by simp⟩
  · simp only [h]
    simp

/-- Assigning one key preserves the presence of every key. -/
theorem hasKey_jsAssign_mono (acc : List (String × ResolverResult))
    (k k' : String) (v : ResolverResult) (h : hasKey acc k' = true) :
    hasKey (jsAssign acc k v) k' = true := by
  unfold hasKey jsAssign
  unfold hasKey at h
  by_cases hk : acc.any (fun e => e.1 == k)
  · simp only [hk, if_true]
    rw [List.any_eq_true] at h ⊢
    obtain ⟨e, he, hek⟩ := h
    by_cases hke : e.1 == k
    · refine ⟨(k, v), List.mem_map.mpr ⟨e, he, by simp [hke]⟩, ?_⟩
      have h1 : e.1 = k' := by simpa using hek
      have h2 : e.1 = k := by simpa using hke
      simp [← h1, h2]
    · exact ⟨e, List.mem_map.mpr ⟨e, he, by simp [hke]⟩, hek⟩
  · simp only [hk]
    rw [List.any_eq_true] at h
    obtain ⟨e, he, hek⟩ := h
    rw [List.any_eq_true]
    exact ⟨e, by simp [he], hek⟩

/-- The reduce of the object-literal case preserves every key already
present in the accumulator. -/
theorem hasKey_resolveProps_mono (env : Env) :
    ∀ (ps : List ObjectProp) (acc : List (String × ResolverResult))
      (k : String), hasKey acc k = true →
      hasKey (resolveProps env ps acc) k = true := by
  intro ps
  induction ps with
  | nil => intro acc k h; simpa [resolveProps] using h
  | cons p rest ih =>
    intro acc k h
    cases p with
    | propertyAssignment n v =>
      simp only [resolveProps]
      exact ih _ k (hasKey_jsAssign_mono _ _ _ _ h)
    | otherProperty kd =>
      simp only [resolveProps]
      exact ih _ k h

/-- Every property assignment of the member list leaves its coerced key in
the record the reduce builds. -/
theorem resolveProps_key_present (env : Env) :
    ∀ (ps : List ObjectProp) (acc : List (String × ResolverResult))
      (n v : Expr), ObjectProp.propertyAssignment n v ∈ ps →
      hasKey (resolveProps env ps acc)
        (jsToPropertyKey (resolveToLiteral env n)) = true := by
  intro ps
  induction ps with
  | nil => intro acc n v h; simp at h
  | cons p rest ih =>
    intro acc n v h
    rcases List.mem_cons.mp h with heq | hmem
    · rw [← heq]
      simp only [resolveProps]
      exact hasKey_resolveProps_mono env rest _ _
        (hasKey_jsAssign_self _ _ _)
    · cases p with
      | propertyAssignment n' v' =>
        simp only [resolveProps]
        exact ih _ n v hmem
      | otherProperty kd =>
        simp only [resolveProps]
        exact ih _ n v hmem

/-- The reduce of the object-literal case adds nothing for member kinds
other than property assignments. -/
theorem resolveProps_no_assignments (env : Env) :
    ∀ ps : List ObjectProp, (∀ p ∈ ps, isPropAssign p = false) →
      ∀ acc, resolveProps env ps acc = acc := by
  intro ps
  induction ps with
  | nil => intro _ acc; rfl
  | cons p rest ih =>
    intro h acc
    cases p with
    | propertyAssignment n v =>
      have := h (.propertyAssignment n v) (by simp)
      simp [isPropAssign] at this
    | otherProperty kd =>
      simp only [resolveProps]
      exact ih (fun x hx => h x (by simp [hx])) acc

/-- Amended C7: the Mapping the evaluator builds for an object literal
contains an entry for every property-assignment member — stored under the
JS string coercion of the key's resolved value (for example `"true"` for a
Boolean key, `"undefined"` for an unresolved key) — and only members that
are not property assignments are skipped: with no property assignment the
record is empty. -/
theorem mapping_includes_all_assignments (env : Env)
    (props : List ObjectProp) :
    resolveToLiteral env (.objectLit props) =
      .objectLit (resolveProps env props []) ∧
    (∀ n v, ObjectProp.propertyAssignment n v ∈ props →
      hasKey (resolveProps env props [])
        (jsToPropertyKey (resolveToLiteral env n)) = true) ∧
    ((∀ p ∈ props, isPropAssign p = false) →
      resolveProps env props [] = []) := by
  refine ⟨by simp [resolveToLiteral], ?_, ?_⟩
  · intro n v h
    exact resolveProps_key_present env props [] n v h
  · intro h
    exact resolveProps_no_assignments env props h []

/-- Witness for the amended C7: the record of `{ [true]: 'x' }` holds the
key `"true"`. -/
theorem mapping_includes_all_assignments_witness :
    hasKey (resolveProps env0
      [.propertyAssignment (.computedPropName .trueKw) (.stringLit "x")] [])
      (jsToPropertyKey (resolveToLiteral env0 (.computedPropName .trueKw))) =
      true :=
  (mapping_includes_all_assignments env0
    [.propertyAssignment (.computedPropName .trueKw) (.stringLit "x")]).2.1
    (.computedPropName .trueKw) (.stringLit "x") (by simp)

/-- Counterexample to C9: `@Controller('')` normalizes successfully to a
segment list containing the empty string. -/
theorem empty_segment_cex :
    getControllerPathF 1 env0
        ⟨.callExpr (.ident "Controller" none) [.stringLit ""]⟩ =
      some (.paths [""]) ∧ "" ∈ [""] :=
  ⟨rfl, by simp⟩

/-- An element's contribution is never a fuel failure, a failure marker, or
a list: exactly one of the three. -/
theorem elemContrib_cases (fuel : Nat) (env : Env) (e : Expr)
    (h : elemContribF fuel env e ≠ none) :
    elemContribF fuel env e = some none ∨
      ∃ l, elemContribF fuel env e = some (some l) := by
  cases hc : elemContribF fuel env e with
  | none => exact absurd hc h
  | some o =>
    cases o with
    | none => exact Or.inl rfl
    | some l => exact Or.inr ⟨l, rfl⟩

/-- How the array-element loop treats its head, phrased through the
claim-side contribution: a bad head throws at once, a good head prepends its
contribution to the loop's result on the tail. -/
theorem pathElems_cons (fuel : Nat) (env : Env) (e : Expr) (rest : List Expr)
    (hne : elemContribF fuel env e ≠ none) :
    (elemContribF fuel env e = some none →
      pathElemsF fuel env (e :: rest) = some (.thrown arrElemMsg)) ∧
    (∀ l, elemContribF fuel env e = some (some l) →
      pathElemsF fuel env (e :: rest) =
        (match pathElemsF fuel env rest with
         | none => none
         | some (.thrown m) => some (.thrown m)
         | some (.paths l2) => some (.paths (l ++ l2)))) := by
  cases e
  case stringLit s =>
    refine ⟨fun h => by simp [elemContribF] at h, fun l h => ?_⟩
    have hl : l = [s] := by symm; simpa [elemContribF] using h
    subst hl
    cases hrest : pathElemsF fuel env rest with
    | none => simp [pathElemsF, hrest]
    | some pr => cases pr <;> simp [pathElemsF, hrest]
  case ident t oi =>
    cases hr : resolveVariableF fuel env (.ident t oi) with
    | none => simp [elemContribF, hr] at hne
    | some r =>
      cases r with
      | str s =>
        refine ⟨fun h => by simp [elemContribF, hr] at h, fun l h => ?_⟩
        have hl : l = [s] := by symm; simpa [elemContribF, hr] using h
        subst hl
        cases hrest : pathElemsF fuel env rest with
        | none => simp [pathElemsF, hr, hrest]
        | some pr => cases pr <;> simp [pathElemsF, hr, hrest]
      | strs sl =>
        refine ⟨fun h => by simp [elemContribF, hr] at h, fun l h => ?_⟩
        have hl : l = sl := by symm; simpa [elemContribF, hr] using h
        subst hl
        cases hrest : pathElemsF fuel env rest with
        | none => simp [pathElemsF, hr, hrest]
        | some pr => cases pr <;> simp [pathElemsF, hr, hrest]
      | objNode ps =>
        exact ⟨fun _ => by simp [pathElemsF, hr],
          fun l h => by simp [elemContribF, hr] at h⟩
      | undefined =>
        exact ⟨fun _ => by simp [pathElemsF, hr],
          fun l h => by simp [elemContribF, hr] at h⟩
  all_goals
    cases fuel with
    | zero => simp [elemContribF, resolveVariableF] at hne
    | succ f =>
      exact ⟨fun _ => by simp [pathElemsF],
        fun l h => by simp [elemContribF, resolveVariableF, getSymbolAt] at h⟩

/-- When every element contributes, the loop returns the contributions
joined in source order. -/
theorem pathElems_all_good (fuel : Nat) (env : Env) :
    ∀ elems : List Expr,
      (∀ e ∈ elems, ∃ l, elemContribF fuel env e = some (some l)) →
      pathElemsF fuel env elems =
        some (.paths ((elems.map
          (fun e => ((elemContribF fuel env e).getD none).getD [])).flatten)) := by
  intro elems
  induction elems with
  | nil => intro _; simp [pathElemsF]
  | cons e rest ih =>
    intro h
    obtain ⟨l, hl⟩ := h e (by simp)
    have hrest := ih (fun x hx => h x (by simp [hx]))
    have hcons := (pathElems_cons fuel env e rest (by rw [hl]; simp)).2 l hl
    rw [hcons, hrest]
    simp [hl]

/-- When some element fails to contribute, the loop throws the element
message. -/
theorem pathElems_bad (fuel : Nat) (env : Env) :
    ∀ elems : List Expr,
      (∀ e ∈ elems, elemContribF fuel env e ≠ none) →
      (∃ e ∈ elems, elemContribF fuel env e = some none) →
      pathElemsF fuel env elems = some (.thrown arrElemMsg) := by
  intro elems
  induction elems with
  | nil => intro _ h; simp at h
  | cons e rest ih =>
    intro hne hbad
    by_cases hhead : elemContribF fuel env e = some none
    · exact (pathElems_cons fuel env e rest (hne e (by simp))).1 hhead
    · have hbadrest : ∃ x ∈ rest, elemContribF fuel env x = some none := by
        rcases hbad with ⟨x, hx, hxbad⟩
        rcases List.mem_cons.mp hx with rfl | hxr
        · exact absurd hxbad hhead
        · exact ⟨x, hxr, hxbad⟩
      have hrest := ih (fun x hx => hne x (by simp [hx])) hbadrest
      rcases elemContrib_cases fuel env e (hne e (by simp)) with hb | ⟨l, hg⟩
      · exact absurd hb hhead
      rw [(pathElems_cons fuel env e rest (hne e (by simp))).2 l hg, hrest]

/-- C4: under a sufficient recursion budget (no element exhausts the fuel),
normalizing a sequence-literal argument fails if and only if the sequence is
empty or some element neither is a string literal nor resolves through the
evaluator to a String or a Sequence of Strings; on success the result is the
elements' contributions joined in source order, a string-sequence element
spreading its strings in place. -/
theorem array_argument_characterization (fuel : Nat) (env : Env)
    (elems : List Expr)
    (hfuel : ∀ e ∈ elems, elemContribF fuel env e ≠ none) :
    ((∃ m, getPathFromArrayF fuel env elems = some (.thrown m)) ↔
      (elems = [] ∨ ∃ e ∈ elems, elemContribF fuel env e = some none)) ∧
    (∀ l, getPathFromArrayF fuel env elems = some (.paths l) →
      l = (elems.map
        (fun e => ((elemContribF fuel env e).getD none).getD [])).flatten) := by
  by_cases hnil : elems = []
  · subst hnil
    constructor
    · exact ⟨fun _ => Or.inl rfl, fun _ => ⟨emptyArrayMsg, rfl⟩⟩
    · intro l h
      simp [getPathFromArrayF] at h
  · have hdef : getPathFromArrayF fuel env elems = pathElemsF fuel env elems := by
      simp [getPathFromArrayF, List.isEmpty_iff, hnil]
    by_cases hbad : ∃ e ∈ elems, elemContribF fuel env e = some none
    · have := pathElems_bad fuel env elems hfuel hbad
      rw [hdef, this]
      constructor
      · exact ⟨fun _ => Or.inr hbad, fun _ => ⟨arrElemMsg, rfl⟩⟩
      · intro l h; simp at h
    · have hgood : ∀ e ∈ elems, ∃ l, elemContribF fuel env e = some (some l) := by
        intro e he
        rcases elemContrib_cases fuel env e (hfuel e he) with hb | hg
        · exact absurd ⟨e, he, hb⟩ hbad
        · exact hg
      have := pathElems_all_good fuel env elems hgood
      rw [hdef, this]
      constructor
      · constructor
        · rintro ⟨m, hm⟩; simp at hm
        · rintro (h | h)
          · exact absurd h hnil
          · exact absurd h hbad
      · intro l h
        simpa using h.symm

/-- Witness for C4: `['a', 1]` contains a numeric element, which neither is
a string literal nor resolves to strings, so the normalization throws. -/
theorem array_argument_characterization_witness :
    ∃ m, getPathFromArrayF 1 env0 [.stringLit "a", .numericLit "1"] =
      some (.thrown m) :=
  (array_argument_characterization 1 env0 [.stringLit "a", .numericLit "1"]
    (by
      intro e he
      rcases List.mem_cons.mp he with rfl | he2
      · simp [elemContribF]
      · rcases List.mem_cons.mp he2 with rfl | he3
        · simp [elemContribF, resolveVariableF, getSymbolAt]
        · simp at he3)).1.mpr
    (Or.inr ⟨.numericLit "1", by simp,
      by simp [elemContribF, resolveVariableF, getSymbolAt]⟩)

/-- On the cyclic snapshot `A = [B]`, `B = [A]`, the resolver exhausts every
recursion budget from either entry point. -/
theorem cycle_aux : ∀ fuel,
    resolveVariableF fuel cycEnv (.ident "A" (some 0)) = none ∧
    resolveVariableF fuel cycEnv (.ident "B" (some 1)) = none := by
  intro fuel
  induction fuel with
  | zero => exact ⟨rfl, rfl⟩
  | succ f ih =>
    have h0 : cycEnv.symbols[0]? = some symCycA := rfl
    have h1 : cycEnv.symbols[1]? = some symCycB := rfl
    constructor
    · simp [resolveVariableF, getSymbolAt, h0, symCycA,
        Env.resolveAlias, resolveVarElems, ih.2]
    · simp [resolveVariableF, getSymbolAt, h1, symCycB,
        Env.resolveAlias, resolveVarElems, ih.1]

/-- The array-element loop completes whenever the recursive resolver call
completes on every identifier element. -/
theorem resolveVarElems_ne_none (rv : Expr → Option RVRes) :
    ∀ elems : List Expr,
      (∀ t oi, Expr.ident t oi ∈ elems → rv (.ident t oi) ≠ none) →
      resolveVarElems rv elems ≠ none := by
  intro elems
  induction elems with
  | nil => intro _; simp [resolveVarElems]
  | cons e rest ih =>
    intro h
    have hrest := ih (fun t oi hm => h t oi (by simp [hm]))
    cases e
    case stringLit s =>
      cases hr : resolveVarElems rv rest with
      | none => exact absurd hr hrest
      | some o => cases o <;> simp [resolveVarElems, hr]
    case ident t oi =>
      have hhd := h t oi (by simp)
      cases hv : rv (.ident t oi) with
      | none => exact absurd hv hhd
      | some r =>
        cases r with
        | str s =>
          cases hr : resolveVarElems rv rest with
          | none => exact absurd hr hrest
          | some o => cases o <;> simp [resolveVarElems, hv, hr]
        | strs sl =>
          cases hr : resolveVarElems rv rest with
          | none => exact absurd hr hrest
          | some o => cases o <;> simp [resolveVarElems, hv, hr]
        | objNode ps => simp [resolveVarElems, hv]
        | undefined => simp [resolveVarElems, hv]
    all_goals simp [resolveVarElems]

/-- Identifier elements of a declaration's array initializing expression are
recorded among the symbol's declaration-chain edges. -/
theorem arrayRefs_mem (env : Env) (sym : Symbol) (elems : List Expr)
    (h : (env.resolveAlias sym).declarations.head? =
      some (.variableDecl (some (.arrayLit elems)))) :
    ∀ t j, Expr.ident t (some j) ∈ elems → j ∈ arrayRefs env sym := by
  have hcollect : ∀ (l : List Expr) (t : String) (j : Nat),
      Expr.ident t (some j) ∈ l →
      j ∈ l.foldr (fun e acc =>
        match e with | .ident _ (some j) => j :: acc | _ => acc) [] := by
    intro l
    induction l with
    | nil => intro t j hj; simp at hj
    | cons e rest ih =>
      intro t j hj
      rcases List.mem_cons.mp hj with heq | hmem
      · rw [← heq]; simp
      · have := ih t j hmem
        cases e with
        | ident t' oi => cases oi <;> simp [this]
        | _ => simpa using this
  intro t j hj
  unfold arrayRefs
  rw [h]
  exact hcollect elems t j hj

/-- On a snapshot certified acyclic by a rank function, the resolver
completes once the budget exceeds the rank of the queried symbol. -/
theorem rv_terminates (env : Env) (rank : Nat → Nat) (hR : RankOk env rank) :
    ∀ (fuel : Nat) (t : String) (i : Nat), rank i + 2 ≤ fuel →
      (resolveVariableF fuel env (.ident t (some i))).isSome = true := by
  intro fuel
  induction fuel with
  | zero => intro t i h; omega
  | succ f ihf =>
    intro t i h
    cases hs : env.symbols[i]? with
    | none => simp [resolveVariableF, getSymbolAt, hs]
    | some sym =>
      cases hd : (env.resolveAlias sym).declarations.head? with
      | none => simp [resolveVariableF, getSymbolAt, hs, hd]
      | some d =>
        cases d with
        | otherDecl => simp [resolveVariableF, getSymbolAt, hs, hd]
        | variableDecl oinit =>
          cases oinit with
          | none => simp [resolveVariableF, getSymbolAt, hs, hd]
          | some init =>
            cases init
            case arrayLit elems =>
              have hne : resolveVarElems (resolveVariableF f env) elems ≠
                  none := by
                apply resolveVarElems_ne_none
                intro t' oi hmem
                cases oi with
                | none =>
                  cases f with
                  | zero => omega
                  | succ f2 => simp [resolveVariableF, getSymbolAt]
                | some j =>
                  have hj : j ∈ arrayRefs env sym :=
                    arrayRefs_mem env sym elems hd t' j hmem
                  have hrank : rank j < rank i := hR i sym hs j hj
                  have hok := ihf t' j (by omega)
                  intro hc
                  rw [hc] at hok
                  simp at hok
              cases hre : resolveVarElems (resolveVariableF f env) elems with
              | none => exact absurd hre hne
              | some o =>
                cases o <;> simp [resolveVariableF, getSymbolAt, hs, hd, hre]
            all_goals simp [resolveVariableF, getSymbolAt, hs, hd]

/-- Counterexample to C8: on the cyclic snapshot `A = [B]`, `B = [A]` the
resolver produces no result — in particular not Unresolved — within a
recursion depth of 32, although an evaluator that returned Unresolved on
revisiting a declaration would complete within depth 3. -/
theorem cycle_no_result_within_depth :
    resolveVariableF 32 cycEnv (.ident "A" (some 0)) = none := rfl

/-- Amended C8: the evaluator tracks no visited declarations, so on a
snapshot whose declaration chains form a cycle `resolveVariable` exhausts
every recursion budget (it fails to terminate); termination is guaranteed
exactly when the snapshot's declaration chains are acyclic, witnessed by a
rank function that decreases along every chain edge, in which case a budget
beyond the queried symbol's rank always yields a result. -/
theorem cycle_divergence_and_ranked_termination :
    (∀ fuel, resolveVariableF fuel cycEnv (.ident "A" (some 0)) = none) ∧
    (∀ (env : Env) (rank : Nat → Nat), RankOk env rank →
      ∀ (t : String) (i fuel : Nat), rank i + 2 ≤ fuel →
        (resolveVariableF fuel env (.ident t (some i))).isSome = true) :=
  ⟨fun fuel => (cycle_aux fuel).1,
   fun env rank hR t i fuel h => rv_terminates env rank hR fuel t i h⟩

/-- Witness for the amended C8: the acyclic chain `X = [Y]`, `Y = 'y'` is
rank-certified, and the resolver completes on `X` within budget 3. -/
theorem cycle_divergence_and_ranked_termination_witness :
    (resolveVariableF 3 chainEnv (.ident "X" (some 0))).isSome = true :=
  cycle_divergence_and_ranked_termination.2 chainEnv chainRank
    (by
      intro i sym h j hj
      match i with
      | 0 =>
        simp only [chainEnv, List.getElem?_cons_zero, Option.some_inj] at h
        rw [← h] at hj
        have harr : arrayRefs chainEnv symChainX = [1] := rfl
        rw [harr] at hj
        simp only [List.mem_singleton] at hj
        rw [hj]
        decide
      | 1 =>
        simp only [chainEnv, List.getElem?_cons_succ,
          List.getElem?_cons_zero, Option.some_inj] at h
        rw [← h] at hj
        have harr : arrayRefs chainEnv symChainY = [] := rfl
        rw [harr] at hj
        simp at hj
      | n + 2 =>
        simp [chainEnv] at h)
    "X" 0 3 (by decide)

/-- Texts of a member symbol are texts of the snapshot. -/
theorem textsOfEnv_of_mem :
    ∀ (L : List Symbol) (sym : Symbol), sym ∈ L →
      ∀ s ∈ textsOfSymbol sym,
        s ∈ L.foldr (fun sy acc => textsOfSymbol sy ++ acc) [] := by
  intro L
  induction L with
  | nil => intro sym h; simp at h
  | cons a rest ih =>
    intro sym h s hs
    rcases List.mem_cons.mp h with rfl | hmem
    · simp [List.mem_append, hs]
    · simp [List.mem_append, ih sym hmem s hs]

/-- Texts of an indexed symbol are texts of the snapshot. -/
theorem textsOfEnv_of_get (env : Env) (i : Nat) (sym : Symbol)
    (h : env.symbols[i]? = some sym) :
    ∀ s ∈ textsOfSymbol sym, s ∈ textsOfEnv env :=
  textsOfEnv_of_mem env.symbols sym (List.getElem?_mem h)

/-- Texts of the alias-resolved symbol are texts of the snapshot. -/
theorem textsOf_resolveAlias (env : Env) (sym : Symbol)
    (hmem : sym ∈ env.symbols) :
    ∀ s ∈ textsOfSymbol (env.resolveAlias sym), s ∈ textsOfEnv env := by
  unfold Env.resolveAlias
  by_cases h : sym.isAlias
  · simp only [h, if_true]
    cases ht : env.symbols[sym.aliasTarget]? with
    | none =>
      intro s hs
      simp [Symbol.missing, textsOfSymbol] at hs
    | some t =>
      intro s hs
      exact textsOfEnv_of_get env sym.aliasTarget t ht s (by simpa using hs)
  · simp only [h, if_false]
    exact textsOfEnv_of_mem env.symbols sym hmem

/-- A symbol found by `getSymbolAt` is a member of the snapshot's table. -/
theorem getSymbolAt_mem (env : Env) (e : Expr) (sym : Symbol)
    (h : getSymbolAt env e = some sym) : sym ∈ env.symbols := by
  cases e with
  | ident t oi =>
    cases oi with
    | none => simp [getSymbolAt] at h
    | some i => exact List.getElem?_mem h
  | _ => simp [getSymbolAt] at h

/-- Strings collected by the array-element loop come from the element list's
own string literals or from the snapshot, assuming that property for the
recursive resolver calls. -/
theorem elems_provenance (f : Nat) (env : Env)
    (ih : ∀ (e : Expr) (r : RVRes), resolveVariableF f env e = some r →
      (∀ s, r = .str s → s ∈ textsOfEnv env) ∧
      (∀ l, r = .strs l → ∀ s ∈ l, s ∈ textsOfEnv env) ∧
      (∀ ps, r = .objNode ps → ∀ s ∈ textsOfProps ps, s ∈ textsOfEnv env)) :
    ∀ (elems : List Expr) (l : List String),
      resolveVarElems (resolveVariableF f env) elems = some (some l) →
      ∀ s ∈ l, s ∈ textsOfList elems ∨ s ∈ textsOfEnv env := by
  intro elems
  induction elems with
  | nil =>
    intro l h s hs
    simp only [resolveVarElems, Option.some_inj] at h
    rw [← h] at hs
    simp at hs
  | cons e rest ih2 =>
    intro l h s hs
    cases e
    case stringLit s0 =>
      cases hre : resolveVarElems (resolveVariableF f env) rest with
      | none => simp [resolveVarElems, hre] at h
      | some o =>
        cases o with
        | none => simp [resolveVarElems, hre] at h
        | some l2 =>
          have hl : l = s0 :: l2 := by
            symm; simpa [resolveVarElems, hre] using h
          subst hl
          rcases List.mem_cons.mp hs with rfl | hmem
          · left; simp [textsOfList, textsOfExpr]
          · rcases ih2 l2 hre s hmem with hin | hin
            · left; simp [textsOfList, List.mem_append, hin]
            · right; exact hin
    case ident t oi =>
      cases hr : resolveVariableF f env (.ident t oi) with
      | none => simp [resolveVarElems, hr] at h
      | some r =>
        cases r with
        | str s1 =>
          cases hre : resolveVarElems (resolveVariableF f env) rest with
          | none => simp [resolveVarElems, hr, hre] at h
          | some o =>
            cases o with
            | none => simp [resolveVarElems, hr, hre] at h
            | some l2 =>
              have hl : l = s1 :: l2 := by
                symm; simpa [resolveVarElems, hr, hre] using h
              subst hl
              rcases List.mem_cons.mp hs with rfl | hmem
              · right; exact (ih _ _ hr).1 s rfl
              · rcases ih2 l2 hre s hmem with hin | hin
                · left; simp [textsOfList, List.mem_append, hin]
                · right; exact hin
        | strs sl =>
          cases hre : resolveVarElems (resolveVariableF f env) rest with
          | none => simp [resolveVarElems, hr, hre] at h
          | some o =>
            cases o with
            | none => simp [resolveVarElems, hr, hre] at h
            | some l2 =>
              have hl : l = sl ++ l2 := by
                symm; simpa [resolveVarElems, hr, hre] using h
              subst hl
              rcases List.mem_append.mp hs with hmem | hmem
              · right; exact (ih _ _ hr).2.1 sl rfl s hmem
              · rcases ih2 l2 hre s hmem with hin | hin
                · left; simp [textsOfList, List.mem_append, hin]
                · right; exact hin
        | objNode ps => simp [resolveVarElems, hr] at h
        | undefined => simp [resolveVarElems, hr] at h
    all_goals simp [resolveVarElems] at h

/-- Every string the variable resolver produces is the text of a string
literal written in some declaration of the snapshot, and a resolved object
node's texts likewise come from the snapshot. -/
theorem rv_provenance :
    ∀ (fuel : Nat) (env : Env) (e : Expr) (r : RVRes),
      resolveVariableF fuel env e = some r →
      (∀ s, r = .str s → s ∈ textsOfEnv env) ∧
      (∀ l, r = .strs l → ∀ s ∈ l, s ∈ textsOfEnv env) ∧
      (∀ ps, r = .objNode ps → ∀ s ∈ textsOfProps ps, s ∈ textsOfEnv env) := by
  intro fuel
  induction fuel with
  | zero => intro env e r h; simp [resolveVariableF] at h
  | succ f ihf =>
    intro env e r h
    cases hs : getSymbolAt env e with
    | none =>
      simp only [resolveVariableF, hs, Option.some_inj] at h
      subst h
      refine ⟨?_, ?_, ?_⟩ <;> (intro _ hr; simp at hr)
    | some sym0 =>
      have hmem := getSymbolAt_mem env e sym0 hs
      have halias := textsOf_resolveAlias env sym0 hmem
      cases hd : (env.resolveAlias sym0).declarations.head? with
      | none =>
        simp only [resolveVariableF, hs, hd, Option.some_inj] at h
        subst h
        refine ⟨?_, ?_, ?_⟩ <;> (intro _ hr; simp at hr)
      | some d =>
        have htexts : ∀ s ∈ textsOfDecl d, s ∈ textsOfEnv env := by
          intro s hsx
          apply halias
          simp [textsOfSymbol, hd, hsx]
        cases d with
        | otherDecl =>
          simp only [resolveVariableF, hs, hd, Option.some_inj] at h
          subst h
          refine ⟨?_, ?_, ?_⟩ <;> (intro _ hr; simp at hr)
        | variableDecl oinit =>
          cases oinit with
          | none =>
            simp only [resolveVariableF, hs, hd, Option.some_inj] at h
            subst h
            refine ⟨?_, ?_, ?_⟩ <;> (intro _ hr; simp at hr)
          | some init =>
            cases init
            case stringLit s0 =>
              simp only [resolveVariableF, hs, hd, Option.some_inj] at h
              subst h
              refine ⟨?_, ?_, ?_⟩
              · intro s hr
                cases hr
                exact htexts s0 (by simp [textsOfDecl, textsOfExpr])
              · intro _ hr; simp at hr
              · intro _ hr; simp at hr
            case arrayLit elems =>
              have harr : ∀ s ∈ textsOfList elems, s ∈ textsOfEnv env := by
                intro s hsx
                exact htexts s (by simp [textsOfDecl, textsOfExpr, hsx])
              simp only [resolveVariableF, hs, hd] at h
              cases hre : resolveVarElems (resolveVariableF f env) elems with
              | none => rw [hre] at h; simp at h
              | some o =>
                cases o with
                | none =>
                  rw [hre] at h
                  simp only [Option.some_inj] at h
                  subst h
                  refine ⟨?_, ?_, ?_⟩ <;> (intro _ hr; simp at hr)
                | some l0 =>
                  rw [hre] at h
                  simp only [Option.some_inj] at h
                  subst h
                  refine ⟨?_, ?_, ?_⟩
                  · intro _ hr; simp at hr
                  · intro l hr s hsl
                    cases hr
                    rcases elems_provenance f env (ihf env) elems l0 hre s hsl
                      with hin | hin
                    · exact harr s hin
                    · exact hin
                  · intro _ hr; simp at hr
            case objectLit ps0 =>
              simp only [resolveVariableF, hs, hd, Option.some_inj] at h
              subst h
              refine ⟨?_, ?_, ?_⟩
              · intro _ hr; simp at hr
              · intro _ hr; simp at hr
              · intro ps hr s hsx
                cases hr
                exact htexts s (by simp [textsOfDecl, textsOfExpr, hsx])
            all_goals
              simp only [resolveVariableF, hs, hd, Option.some_inj] at h
            all_goals
              subst h
            all_goals
              refine ⟨?_, ?_, ?_⟩ <;> (intro _ hr; simp at hr)

/-- Texts of a member property are texts of the whole member list. -/
theorem textsOfProps_of_mem :
    ∀ (props : List ObjectProp) (n v : Expr),
      ObjectProp.propertyAssignment n v ∈ props →
      ∀ s, (s ∈ textsOfExpr n ∨ s ∈ textsOfExpr v) → s ∈ textsOfProps props := by
  intro props
  induction props with
  | nil => intro n v h; simp at h
  | cons p rest ih =>
    intro n v h s hs
    rcases List.mem_cons.mp h with heq | hmem
    · rw [← heq]
      simp only [textsOfProps, List.mem_append]
      rcases hs with hs | hs
      · exact Or.inl (Or.inl hs)
      · exact Or.inl (Or.inr hs)
    · cases p with
      | propertyAssignment n' v' =>
        simp only [textsOfProps, List.mem_append]
        exact Or.inr (ih n v hmem s hs)
      | otherProperty kd =>
        simp only [textsOfProps]
        exact ih n v hmem s hs

/-- Segments collected by the path-array element loop are texts of the
element list or of the snapshot. -/
theorem pathElems_provenance (fuel : Nat) (env : Env) :
    ∀ (elems : List Expr) (l : List String),
      pathElemsF fuel env elems = some (.paths l) →
      ∀ s ∈ l, s ∈ textsOfList elems ∨ s ∈ textsOfEnv env := by
  intro elems
  induction elems with
  | nil =>
    intro l h s hs
    simp only [pathElemsF, Option.some_inj, PathResult.paths.injEq] at h
    rw [← h] at hs
    simp at hs
  | cons e rest ih2 =>
    intro l h s hs
    cases e
    case stringLit s0 =>
      cases hre : pathElemsF fuel env rest with
      | none => simp [pathElemsF, hre] at h
      | some pr =>
        cases pr with
        | thrown m => simp [pathElemsF, hre] at h
        | paths l2 =>
          have hl : l = s0 :: l2 := by
            symm; simpa [pathElemsF, hre] using h
          subst hl
          rcases List.mem_cons.mp hs with rfl | hmem
          · left; simp [textsOfList, textsOfExpr]
          · rcases ih2 l2 hre s hmem with hin | hin
            · left; simp [textsOfList, List.mem_append, hin]
            · right; exact hin
    case ident t oi =>
      cases hr : resolveVariableF fuel env (.ident t oi) with
      | none => simp [pathElemsF, hr] at h
      | some r =>
        cases r with
        | str s1 =>
          cases hre : pathElemsF fuel env rest with
          | none => simp [pathElemsF, hr, hre] at h
          | some pr =>
            cases pr with
            | thrown m => simp [pathElemsF, hr, hre] at h
            | paths l2 =>
              have hl : l = s1 :: l2 := by
                symm; simpa [pathElemsF, hr, hre] using h
              subst hl
              rcases List.mem_cons.mp hs with rfl | hmem
              · right; exact (rv_provenance fuel env _ _ hr).1 s rfl
              · rcases ih2 l2 hre s hmem with hin | hin
                · left; simp [textsOfList, List.mem_append, hin]
                · right; exact hin
        | strs sl =>
          cases hre : pathElemsF fuel env rest with
          | none => simp [pathElemsF, hr, hre] at h
          | some pr =>
            cases pr with
            | thrown m => simp [pathElemsF, hr, hre] at h
            | paths l2 =>
              have hl : l = sl ++ l2 := by
                symm; simpa [pathElemsF, hr, hre] using h
              subst hl
              rcases List.mem_append.mp hs with hmem | hmem
              · right; exact (rv_provenance fuel env _ _ hr).2.1 sl rfl s hmem
              · rcases ih2 l2 hre s hmem with hin | hin
                · left; simp [textsOfList, List.mem_append, hin]
                · right; exact hin
        | objNode ps => simp [pathElemsF, hr] at h
        | undefined => simp [pathElemsF, hr] at h
    all_goals simp [pathElemsF] at h

/-- Segments of a successfully normalized array argument are texts of the
element list or of the snapshot. -/
theorem getPathFromArray_provenance (fuel : Nat) (env : Env)
    (elems : List Expr) (l : List String)
    (h : getPathFromArrayF fuel env elems = some (.paths l)) :
    ∀ s ∈ l, s ∈ textsOfList elems ∨ s ∈ textsOfEnv env := by
  cases elems with
  | nil => simp [getPathFromArrayF, emptyArrayMsg] at h
  | cons e rest =>
    rw [getPathFromArrayF] at h
    simp only [List.isEmpty_cons, if_false, Bool.false_eq_true] at h
    exact pathElems_provenance fuel env (e :: rest) l h

/-- Segments of a successfully normalized options object are texts of its
member list or of the snapshot. -/
theorem getPathFromOptions_provenance (fuel : Nat) (env : Env)
    (props : List ObjectProp) (l : List String)
    (h : getPathFromOptionsF fuel env props = some (.paths l)) :
    ∀ s ∈ l, s ∈ textsOfProps props ∨ s ∈ textsOfEnv env := by
  intro s hs
  rw [getPathFromOptionsF] at h
  cases hf : props.find? isPathProp with
  | none =>
    rw [hf] at h
    simp only [Option.some_inj, PathResult.paths.injEq] at h
    rw [← h] at hs
    simp at hs
  | some p =>
    rw [hf] at h
    have hpmem := List.mem_of_find?_eq_some hf
    cases p with
    | otherProperty kd => simp at h
    | propertyAssignment n init =>
      simp only [] at h
      cases init
      case stringLit s0 =>
        simp only [Option.some_inj, PathResult.paths.injEq] at h
        rw [← h] at hs
        simp only [List.mem_singleton] at hs
        subst hs
        exact Or.inl (textsOfProps_of_mem props n _ hpmem s
          (Or.inr (by simp [textsOfExpr])))
      case arrayLit elems =>
        rcases getPathFromArray_provenance fuel env elems l h s hs with hin | hin
        · exact Or.inl (textsOfProps_of_mem props n _ hpmem s
            (Or.inr (by simp [textsOfExpr, hin])))
        · exact Or.inr hin
      case ident t oi =>
        cases hr : resolveVariableF fuel env (.ident t oi) with
        | none => simp [hr] at h
        | some r =>
          cases r with
          | str s1 =>
            simp only [hr, Option.some_inj, PathResult.paths.injEq] at h
            rw [← h] at hs
            simp only [List.mem_singleton] at hs
            subst hs
            exact Or.inr ((rv_provenance fuel env _ _ hr).1 s rfl)
          | strs sl =>
            simp only [hr, Option.some_inj, PathResult.paths.injEq] at h
            rw [← h] at hs
            exact Or.inr ((rv_provenance fuel env _ _ hr).2.1 sl rfl s hs)
          | objNode ps => simp [hr] at h
          | undefined => simp [hr] at h
      all_goals simp at h

/-- Segments of a successfully normalized top-level argument are texts of
the argument expression or of the snapshot. -/
theorem getPathFromArgument_provenance (fuel : Nat) (env : Env) (arg : Expr)
    (l : List String)
    (h : getPathFromArgumentF fuel env arg = some (.paths l)) :
    ∀ s ∈ l, s ∈ textsOfExpr arg ∨ s ∈ textsOfEnv env := by
  intro s hs
  cases arg
  case stringLit s0 =>
    simp only [getPathFromArgumentF, Option.some_inj, ArgRes.paths.injEq] at h
    rw [← h] at hs
    simp only [List.mem_singleton] at hs
    subst hs
    exact Or.inl (by simp [textsOfExpr])
  case ident t oi =>
    rw [getPathFromArgumentF] at h
    cases hr : resolveVariableF fuel env (.ident t oi) with
    | none => simp [hr] at h
    | some r =>
      cases r with
      | str s1 =>
        simp only [hr, Option.some_inj, ArgRes.paths.injEq] at h
        rw [← h] at hs
        simp only [List.mem_singleton] at hs
        subst hs
        exact Or.inr ((rv_provenance fuel env _ _ hr).1 s rfl)
      | strs sl =>
        simp only [hr, Option.some_inj, ArgRes.paths.injEq] at h
        rw [← h] at hs
        exact Or.inr ((rv_provenance fuel env _ _ hr).2.1 sl rfl s hs)
      | objNode ps =>
        simp only [hr] at h
        cases ho : getPathFromOptionsF fuel env ps with
        | none => simp [ho] at h
        | some pr =>
          cases pr with
          | thrown m => simp [ho] at h
          | paths l2 =>
            simp only [ho, Option.some_inj, ArgRes.paths.injEq] at h
            subst h
            rcases getPathFromOptions_provenance fuel env ps l2 ho s hs
              with hin | hin
            · exact Or.inr ((rv_provenance fuel env _ _ hr).2.2 ps rfl s hin)
            · exact Or.inr hin
      | undefined => simp [hr] at h
  all_goals simp [getPathFromArgumentF] at h

/-- Amended C9: every Path Segment List returned by a successful
normalization is either empty or consists of segments each of which is the
text of a string literal written in the marker expression or in a
declaration of the snapshot; the normalizer invents no segments, and since
those literal texts may themselves be empty, a returned segment may equal
the empty string (the code performs no non-emptiness check). -/
theorem path_segments_from_source (fuel : Nat) (env : Env) (dec : Decorator)
    (l : List String)
    (h : getControllerPathF fuel env dec = some (.paths l)) :
    ∀ s ∈ l, s ∈ textsOfExpr dec.expression ∨ s ∈ textsOfEnv env := by
  intro s hs
  obtain ⟨de⟩ := dec
  cases de
  case callExpr callee args =>
    rw [getControllerPathF] at h
    cases args with
    | nil =>
      simp only [List.head?_nil, Option.some_inj, PathResult.paths.injEq] at h
      rw [← h] at hs
      simp at hs
    | cons a rest =>
      simp only [List.head?_cons] at h
      have hsub : s ∈ textsOfExpr a → s ∈ textsOfExpr (Expr.callExpr callee (a :: rest)) := by
        intro hin
        simp [textsOfExpr, textsOfList, List.mem_append, hin]
      cases a
      case objectLit ps =>
        rcases getPathFromOptions_provenance fuel env ps l h s hs with hin | hin
        · exact Or.inl (hsub (by simp [textsOfExpr, hin]))
        · exact Or.inr hin
      case arrayLit elems =>
        rcases getPathFromArray_provenance fuel env elems l h s hs with hin | hin
        · exact Or.inl (hsub (by simp [textsOfExpr, hin]))
        · exact Or.inr hin
      all_goals (
        simp only [] at h
        split at h
        · simp at h
        · rename_i l2 heq
          simp only [Option.some_inj, PathResult.paths.injEq] at h
          subst h
          rcases getPathFromArgument_provenance fuel env _ _ heq s hs
            with hin | hin
          · exact Or.inl (hsub hin)
          · exact Or.inr hin
        · simp at h
        · simp at h)
  all_goals simp [getControllerPathF] at h

/-- Witness for the amended C9: the one segment of `@Controller('users')`
is the text of a string literal written in the marker expression. -/
theorem path_segments_from_source_witness :
    "users" ∈ textsOfExpr decUsers.expression ∨ "users" ∈ textsOfEnv env0 :=
  path_segments_from_source 1 env0 decUsers ["users"] (by rfl) "users" (by simp)

end NestDto
